import Mathlib

/-!
Verification of mpd-fzf (mpd-fzf.go): a shallow embedding of the database
parser, the track formatter and the selection bridge, with theorems about
the specified behaviour.  Go strings are modelled as lists of Unicode
codepoints (runes); fatal aborts (fail / failOn / failNotify) are modelled
with Except / Option.
-/

/-- A Go string, modelled as the list of its runes (Unicode codepoints). -/
abbrev GoStr := List Char

/-- The field delimiter of mpd-fzf.go: U+2002 EN SPACE
(const delimiter string = " "). -/
def delimChar : Char := ' '

/-- The directory stack of mpd-fzf.go (type Stack []string); the top of the
stack is the last element. -/
abbrev Stack := List GoStr

/-- The diagnostic used by Stack.DiscardTop in mpd-fzf.go. -/
def corruptMsg : GoStr := "Invalid directory state. Corrupted database?".toList

/-- Stack.Push from mpd-fzf.go: appends a directory name. -/
def Stack.Push (s : Stack) (dirname : GoStr) : Stack := s ++ [dirname]

/-- Stack.DiscardTop from mpd-fzf.go: failOn(len(stack) <= 0, ...) aborts the
whole process (modelled as Except.error); otherwise the top element is
discarded (stack[:len(stack)-1]). -/
def Stack.DiscardTop (s : Stack) : Except GoStr Stack :=
  if s.length ≤ 0 then Except.error corruptMsg else Except.ok s.dropLast

/-- Index of the first colon in a line, strings.Index(line, ":") with the
-1 result modelled as none. -/
def indexOfColon : GoStr → Option Nat
  | [] => none
  | c :: cs => if c = ':' then some 0 else (indexOfColon cs).map (· + 1)

/-- keyValue from mpd-fzf.go: split a database line at the first colon.
No colon: the whole line is the key, value empty.  Colon in final position:
key is the part before the colon, value empty.  Otherwise the key is the
part before the colon and the value starts two runes after the colon, or
one rune after it when the rune following the colon is not a space. -/
def keyValue (line : GoStr) : GoStr × GoStr :=
  match indexOfColon line with
  | none => (line, [])
  | some i =>
    if i = line.length - 1 then (line.take i, [])
    else
      match line.drop (i + 1) with
      | [] => (line.take i, [])
      | c :: rest => if c = ' ' then (line.take i, rest) else (line.take i, c :: rest)

/-- strings.Replace(s, string(c), rep, 1) for a single-rune pattern:
replace the first occurrence of c by rep. -/
def replaceFirstChar (s : GoStr) (c : Char) (rep : GoStr) : GoStr :=
  match s with
  | [] => []
  | x :: xs => if x = c then rep ++ xs else x :: replaceFirstChar xs c rep

/-- expandUser from mpd-fzf.go: a path beginning with a tilde-slash prefix
has its first tilde replaced by the home directory
(strings.HasPrefix guard, then strings.Replace(path, "~", home, 1)). -/
def expandUser (path home : GoStr) : GoStr :=
  if "~/".toList <+: path then replaceFirstChar path '~' home else path

/-- A Go error value: nil, or an error carrying its Error() message. -/
abbrev GoErr := Option GoStr

/-- ignoreExitInterrupt from mpd-fzf.go: a nil error stays nil; an error
whose message ends in "130" (fzf cancelled by the user) is converted to
nil; every other error passes through. -/
def ignoreExitInterrupt (err : GoErr) : GoErr :=
  match err with
  | some msg => if "130".toList <:+ msg then none else some msg
  | none => none

/-- The process exit code produced by the final
fail(ignoreExitInterrupt(fzf.Wait())) of mpd-fzf.go: fail exits 1 on a
non-nil error, and main returning normally exits 0. -/
def exitCodeAfterWait (waitErr : GoErr) : Nat :=
  match ignoreExitInterrupt waitErr with
  | none => 0
  | some _ => 1

theorem indexOfColon_of_not_mem {line : GoStr} (h : ':' ∉ line) :
    indexOfColon line = none := by
  induction line with
  | nil => rfl
  | cons c cs ih =>
    simp only [List.mem_cons, not_or] at h
    have hc : c ≠ ':' := fun hce => h.1 hce.symm
    simp [indexOfColon, hc, ih h.2]

theorem indexOfColon_append {A : GoStr} (B : GoStr) (h : ':' ∉ A) :
    indexOfColon (A ++ ':' :: B) = some A.length := by
  induction A with
  | nil => simp [indexOfColon]
  | cons c cs ih =>
    simp only [List.mem_cons, not_or] at h
    have hc : c ≠ ':' := fun hce => h.1 hce.symm
    simp [indexOfColon, hc, ih h.2]

theorem keyValue_no_colon {line : GoStr} (h : ':' ∉ line) :
    keyValue line = (line, []) := by
  simp [keyValue, indexOfColon_of_not_mem h]

theorem keyValue_append {A B : GoStr} (h : ':' ∉ A) :
    keyValue (A ++ ':' :: B) =
      (A, match B with
          | [] => []
          | c :: rest => if c = ' ' then rest else c :: rest) := by
  have hidx := indexOfColon_append B h
  have htake : (A ++ ':' :: B).take A.length = A := by
    simp [List.take_append]
  have hdrop : (A ++ ':' :: B).drop (A.length + 1) = B := by
    have h2 := List.drop_left (A ++ [':']) B
    simpa using h2
  cases B with
  | nil =>
    simp only [keyValue, hidx]
    rw [if_pos (by simp)]
    simpa using htake
  | cons c rest =>
    simp only [keyValue, hidx]
    rw [if_neg (by simp [List.length_append])]
    simp only [hdrop, htake]
    by_cases hc : c = ' ' <;> simp [hc]

/-- C7 (amended): the key/value splitter keyValue returns the whole line as
key with empty value when the line has no colon; when the first colon is the
final rune the key is the part before the colon (not the whole line) and the
value is empty; otherwise the key is the part before the first colon and the
value starts two runes after the colon, or one rune after it when the rune
following the colon is not a space; values containing further colons are
preserved verbatim. -/
theorem c7_keyValue_spec :
    (∀ line : GoStr, ':' ∉ line → keyValue line = (line, [])) ∧
    (∀ A : GoStr, ':' ∉ A → keyValue (A ++ [':']) = (A, [])) ∧
    (∀ (A rest : GoStr), ':' ∉ A →
      keyValue (A ++ ':' :: ' ' :: rest) = (A, rest)) ∧
    (∀ (A : GoStr) (c : Char) (rest : GoStr), ':' ∉ A → c ≠ ' ' →
      keyValue (A ++ ':' :: c :: rest) = (A, c :: rest)) := by
  refine ⟨fun line h => keyValue_no_colon h, fun A h => ?_, fun A rest h => ?_,
    fun A c rest h hc => ?_⟩
  · simpa using keyValue_append (B := []) h
  · simpa using keyValue_append (B := ' ' :: rest) h
  · simpa [hc] using keyValue_append (B := c :: rest) h

/-- Witness for C7: concrete instances of each conjunct. -/
theorem c7_keyValue_spec_witness :
    keyValue "end".toList = ("end".toList, []) ∧
    keyValue "ab:".toList = ("ab".toList, []) ∧
    keyValue "Artist: x: y".toList = ("Artist".toList, "x: y".toList) ∧
    keyValue "a:b".toList = ("a".toList, "b".toList) := by
  refine ⟨c7_keyValue_spec.1 "end".toList (by decide), ?_, ?_, ?_⟩
  · have := c7_keyValue_spec.2.1 "ab".toList (by decide)
    simpa using this
  · have := c7_keyValue_spec.2.2.1 "Artist".toList "x: y".toList (by decide)
    simpa using this
  · have := c7_keyValue_spec.2.2.2 "a".toList 'b' [] (by decide) (by decide)
    simpa using this

/-- Counterexample for C7 as stated: on the line "a:" (first colon in final
position) the claim predicts the whole line "a:" as key; keyValue actually
returns the part before the colon. -/
theorem c7_keyValue_counterexample :
    keyValue "a:".toList = ("a".toList, []) ∧
    keyValue "a:".toList ≠ ("a:".toList, []) := by
  constructor <;> decide

/-- C5: the directory stack depth is a natural number (hence never below 0),
and DiscardTop on an empty stack fails fast with the corrupted-database
diagnostic — never a silent no-op — while on a nonempty stack it removes
exactly the top element. -/
theorem c5_discardTop_spec (s : Stack) :
    (s = [] → s.DiscardTop = Except.error corruptMsg) ∧
    (s ≠ [] → s.DiscardTop = Except.ok s.dropLast) ∧
    (∀ s2, s.DiscardTop = Except.ok s2 → s2.length + 1 = s.length) := by
  refine ⟨fun h => by simp [Stack.DiscardTop, h], fun h => ?_, fun s2 h => ?_⟩
  · have : ¬ s.length ≤ 0 := by
      cases s with
      | nil => exact absurd rfl h
      | cons a t => simp
    simp [Stack.DiscardTop, this]
  · by_cases hs : s.length ≤ 0
    · simp [Stack.DiscardTop, hs] at h
    · simp only [Stack.DiscardTop, if_neg hs] at h
      cases h
      have : s ≠ [] := by
        intro hnil
        exact hs (by simp [hnil])
      simp [List.length_dropLast]
      omega

/-- Witness for C5: DiscardTop fails on the empty stack and pops a singleton
stack to the empty stack. -/
theorem c5_discardTop_spec_witness :
    Stack.DiscardTop [] = Except.error corruptMsg ∧
    Stack.DiscardTop ["a".toList] = Except.ok [] := by
  refine ⟨(c5_discardTop_spec []).1 rfl, ?_⟩
  have := (c5_discardTop_spec ["a".toList]).2.1 (by decide)
  simpa using this

/-- C8: the wait-error filter maps a nil result and a user-cancel result
(message ending in "130") to exit code 0, without faulting on the nil case,
and maps every other collaborator failure to exit code 1. -/
theorem c8_exit_codes :
    exitCodeAfterWait none = 0 ∧
    (∀ msg : GoStr, "130".toList <:+ msg → exitCodeAfterWait (some msg) = 0) ∧
    (∀ msg : GoStr, ¬ "130".toList <:+ msg → exitCodeAfterWait (some msg) = 1) ∧
    ignoreExitInterrupt none = none := by
  refine ⟨rfl, fun msg h => ?_, fun msg h => ?_, rfl⟩
  · simp only [exitCodeAfterWait, ignoreExitInterrupt]
    rw [if_pos h]
  · simp only [exitCodeAfterWait, ignoreExitInterrupt]
    rw [if_neg h]

/-- Witness for C8: a successful exit, a user cancel (fzf exit status 130)
and an ordinary failure. -/
theorem c8_exit_codes_witness :
    exitCodeAfterWait none = 0 ∧
    exitCodeAfterWait (some "exit status 130".toList) = 0 ∧
    exitCodeAfterWait (some "exit status 2".toList) = 1 := by
  refine ⟨c8_exit_codes.1, ?_, ?_⟩
  · exact c8_exit_codes.2.1 "exit status 130".toList (by decide)
  · exact c8_exit_codes.2.2.1 "exit status 2".toList (by decide)

/-- C10: home-directory expansion is total on all paths, including paths of
length 0 or 1: a path beginning with a tilde-slash has its leading tilde
replaced by the home directory, and every other path is returned unchanged. -/
theorem c10_expandUser_spec :
    (∀ (rest home : GoStr),
      expandUser ('~' :: '/' :: rest) home = home ++ '/' :: rest) ∧
    (∀ (path home : GoStr), ¬ "~/".toList <+: path → expandUser path home = path) ∧
    (∀ home : GoStr, expandUser [] home = []) ∧
    (∀ (c : Char) (home : GoStr), expandUser [c] home = [c]) := by
  have hshort : ∀ (l : GoStr), l.length < 2 → ¬ "~/".toList <+: l := by
    intro l hl hpre
    have := hpre.length_le
    simp at this
    omega
  refine ⟨fun rest home => ?_, fun path home h => ?_, fun home => ?_, fun c home => ?_⟩
  · have hpre : "~/".toList <+: ('~' :: '/' :: rest) := ⟨rest, rfl⟩
    simp [expandUser, hpre, replaceFirstChar]
  · simp only [expandUser]
    rw [if_neg h]
  · simp only [expandUser]
    rw [if_neg (hshort [] (by simp))]
  · simp only [expandUser]
    rw [if_neg (hshort [c] (by simp))]

/-- Witness for C10: expansion of a home-relative path, and short paths of
length one and zero returned unchanged. -/
theorem c10_expandUser_spec_witness :
    expandUser "~/music".toList "/home/u".toList = "/home/u/music".toList ∧
    expandUser "x".toList "/home/u".toList = "x".toList ∧
    expandUser [] "/home/u".toList = [] := by
  refine ⟨?_, ?_, c10_expandUser_spec.2.2.1 "/home/u".toList⟩
  · have := c10_expandUser_spec.1 "music".toList "/home/u".toList
    simpa using this
  · have := c10_expandUser_spec.2.1 "x".toList "/home/u".toList (by decide)
    simpa using this

/-- Decimal digit character, as produced by Go integer formatting. -/
def decDigit (k : Nat) : Char :=
  match k with
  | 0 => '0' | 1 => '1' | 2 => '2' | 3 => '3' | 4 => '4'
  | 5 => '5' | 6 => '6' | 7 => '7' | 8 => '8' | _ => '9'

/-- Fuel-driven decimal formatting core (digits of n in front of acc). -/
def natToStrCore : Nat → Nat → GoStr → GoStr
  | 0, _, acc => acc
  | fuel + 1, n, acc =>
    if n < 10 then decDigit n :: acc
    else natToStrCore fuel (n / 10) (decDigit (n % 10) :: acc)

/-- Decimal representation of a natural number: the unpadded hour and
minute verbs of Go time formatting, and fmt %d. -/
def natToStr (n : Nat) : GoStr := natToStrCore (n + 1) n []

/-- Two-digit zero-padded decimal: the "04" and "05" verbs of Go time
formatting, for arguments below 100. -/
def pad2 (n : Nat) : GoStr := if n < 10 then '0' :: natToStr n else natToStr n

/-- Value of a string of decimal digit characters. -/
def digitsVal (s : GoStr) : Nat := s.foldl (fun acc c => acc * 10 + (c.toNat - 48)) 0

/-- Model of Go time.ParseDuration(str + "s") on the raw mpd Time values: a
nonempty string of ASCII digits parses to that many seconds when the value
fits the int64-nanosecond range (at most 9223372036 seconds); every other
string fails, modelled as none.  Fractional, signed or unit-suffixed
strings are outside the model scope. -/
def goParseSeconds (s : GoStr) : Option Nat :=
  if s ≠ [] ∧ s.all (fun c => decide ('0' ≤ c ∧ c ≤ '9')) ∧ digitsVal s ≤ 9223372036
  then some (digitsVal s) else none

/-- formatDurationString from mpd-fzf.go.  On a parse failure the
placeholder "(-:--)" is returned.  Otherwise, with the duration below one
hour, time.Time{}.Add(duration).Format("(4:05)") prints the minute count
unpadded and the second count zero-padded to two digits; at one hour or
more, fmt.Sprintf("(%d:%s)", int(duration.Hours()), t.Format("04:05"))
prints whole hours unpadded then zero-padded minutes and seconds. -/
def formatDurationString (s : GoStr) : GoStr :=
  match goParseSeconds s with
  | none => "(-:--)".toList
  | some n =>
    if n < 3600 then
      '(' :: natToStr (n / 60) ++ ':' :: pad2 (n % 60) ++ [')']
    else
      '(' :: natToStr (n / 3600) ++ ':' :: pad2 (n / 60 % 60) ++ ':' :: pad2 (n % 60) ++ [')']

theorem decDigit_toNat (k : Nat) : 48 ≤ (decDigit k).toNat ∧ (decDigit k).toNat ≤ 57 := by
  unfold decDigit
  split <;> decide

theorem natToStrCore_chars (fuel : Nat) :
    ∀ (n : Nat) (acc : GoStr), (∀ c ∈ acc, 48 ≤ c.toNat ∧ c.toNat ≤ 57) →
      ∀ c ∈ natToStrCore fuel n acc, 48 ≤ c.toNat ∧ c.toNat ≤ 57 := by
  induction fuel with
  | zero => intro n acc hacc c hc; exact hacc c hc
  | succ fuel ih =>
    intro n acc hacc c hc
    simp only [natToStrCore] at hc
    by_cases hn : n < 10
    · rw [if_pos hn] at hc
      rcases List.mem_cons.mp hc with h | h
      · exact h ▸ decDigit_toNat n
      · exact hacc c h
    · rw [if_neg hn] at hc
      refine ih (n / 10) (decDigit (n % 10) :: acc) ?_ c hc
      intro d hd
      rcases List.mem_cons.mp hd with h | h
      · exact h ▸ decDigit_toNat (n % 10)
      · exact hacc d h

theorem natToStr_chars (n : Nat) : ∀ c ∈ natToStr n, 48 ≤ c.toNat ∧ c.toNat ≤ 57 :=
  natToStrCore_chars (n + 1) n [] (by simp)

theorem pad2_chars (n : Nat) : ∀ c ∈ pad2 n, 48 ≤ c.toNat ∧ c.toNat ≤ 57 := by
  intro c hc
  unfold pad2 at hc
  by_cases hn : n < 10
  · rw [if_pos hn] at hc
    rcases List.mem_cons.mp hc with h | h
    · subst h; exact ⟨by decide, by decide⟩
    · exact natToStr_chars n c h
  · rw [if_neg hn] at hc
    exact natToStr_chars n c hc

theorem formatDurationString_of_parse {s : GoStr} {n : Nat}
    (hp : goParseSeconds s = some n) :
    formatDurationString s =
      if n < 3600 then
        '(' :: natToStr (n / 60) ++ ':' :: pad2 (n % 60) ++ [')']
      else
        '(' :: natToStr (n / 3600) ++ ':' :: pad2 (n / 60 % 60) ++ ':' :: pad2 (n % 60) ++ [')'] := by
  unfold formatDurationString
  rw [hp]

theorem formatDurationString_of_none {s : GoStr} (hp : goParseSeconds s = none) :
    formatDurationString s = "(-:--)".toList := by
  unfold formatDurationString
  rw [hp]

/-- Every rune of a formatted duration is printable low ASCII. -/
theorem formatDuration_ascii (s : GoStr) :
    ∀ c ∈ formatDurationString s, 32 ≤ c.toNat ∧ c.toNat < 64 := by
  have hnum : ∀ (m : Nat) (c : Char), c ∈ natToStr m → 32 ≤ c.toNat ∧ c.toNat < 64 := by
    intro m c h
    have := natToStr_chars m c h
    omega
  have hpad : ∀ (m : Nat) (c : Char), c ∈ pad2 m → 32 ≤ c.toNat ∧ c.toNat < 64 := by
    intro m c h
    have := pad2_chars m c h
    omega
  intro c hc
  cases hp : goParseSeconds s with
  | none =>
    rw [formatDurationString_of_none hp] at hc
    have hlit : ("(-:--)".toList : List Char) = ['(', '-', ':', '-', '-', ')'] := rfl
    rw [hlit] at hc
    simp only [List.mem_cons, List.not_mem_nil, or_false] at hc
    rcases hc with rfl | rfl | rfl | rfl | rfl | rfl <;> exact ⟨by decide, by decide⟩
  | some n =>
    rw [formatDurationString_of_parse hp] at hc
    by_cases hn : n < 3600
    · rw [if_pos hn] at hc
      rcases List.mem_append.mp hc with hc | hc
      · rcases List.mem_append.mp hc with hc | hc
        · rcases List.mem_cons.mp hc with rfl | hc
          · exact ⟨by decide, by decide⟩
          · exact hnum _ c hc
        · rcases List.mem_cons.mp hc with rfl | hc
          · exact ⟨by decide, by decide⟩
          · exact hpad _ c hc
      · have hx : c = ')' := by simpa using hc
        subst hx
        exact ⟨by decide, by decide⟩
    · rw [if_neg hn] at hc
      rcases List.mem_append.mp hc with hc | hc
      · rcases List.mem_append.mp hc with hc | hc
        · rcases List.mem_append.mp hc with hc | hc
          · rcases List.mem_cons.mp hc with rfl | hc
            · exact ⟨by decide, by decide⟩
            · exact hnum _ c hc
          · rcases List.mem_cons.mp hc with rfl | hc
            · exact ⟨by decide, by decide⟩
            · exact hpad _ c hc
        · rcases List.mem_cons.mp hc with rfl | hc
          · exact ⟨by decide, by decide⟩
          · exact hpad _ c hc
      · have hx : c = ')' := by simpa using hc
        subst hx
        exact ⟨by decide, by decide⟩

/-- C4: a raw Time value parsing as n whole seconds is formatted as
(M:SS) for n under one hour and as (H:MM:SS) from one hour on; an
unparseable value yields the fixed placeholder "(-:--)" (the function is
total, so the parser never crashes).  Concretely, "45" gives "(0:45)",
"3661" gives "(1:01:01)" and "not-a-number" gives "(-:--)". -/
theorem c4_formatDuration_spec :
    (∀ (s : GoStr) (n : Nat), goParseSeconds s = some n → n < 3600 →
      formatDurationString s = '(' :: natToStr (n / 60) ++ ':' :: pad2 (n % 60) ++ [')']) ∧
    (∀ (s : GoStr) (n : Nat), goParseSeconds s = some n → 3600 ≤ n →
      formatDurationString s =
        '(' :: natToStr (n / 3600) ++ ':' :: pad2 (n / 60 % 60) ++ ':' :: pad2 (n % 60) ++ [')']) ∧
    (∀ s : GoStr, goParseSeconds s = none → formatDurationString s = "(-:--)".toList) ∧
    formatDurationString "45".toList = "(0:45)".toList ∧
    formatDurationString "3661".toList = "(1:01:01)".toList ∧
    formatDurationString "not-a-number".toList = "(-:--)".toList := by
  refine ⟨fun s n hp hn => ?_, fun s n hp hn => ?_, fun s hp => ?_, by decide, by decide, by decide⟩
  · rw [formatDurationString_of_parse hp, if_pos hn]
  · rw [formatDurationString_of_parse hp, if_neg (by omega)]
  · exact formatDurationString_of_none hp

/-- Witness for C4: both format branches and the failure branch applied at
concrete inputs. -/
theorem c4_formatDuration_spec_witness :
    formatDurationString "45".toList =
      '(' :: natToStr (45 / 60) ++ ':' :: pad2 (45 % 60) ++ [')'] ∧
    formatDurationString "3661".toList =
      '(' :: natToStr (3661 / 3600) ++ ':' :: pad2 (3661 / 60 % 60) ++ ':' :: pad2 (3661 % 60) ++ [')'] ∧
    formatDurationString "x".toList = "(-:--)".toList := by
  refine ⟨c4_formatDuration_spec.1 "45".toList 45 (by decide) (by decide),
    c4_formatDuration_spec.2.1 "3661".toList 3661 (by decide) (by decide),
    c4_formatDuration_spec.2.2.1 "x".toList (by decide)⟩

/-- Track from mpd-fzf.go: one music item.  new(Track) zero-values every
field to the empty string, modelled by the defaults. -/
structure Track where
  Album : GoStr := []
  Artist : GoStr := []
  Date : GoStr := []
  Filename : GoStr := []
  Genre : GoStr := []
  Path : GoStr := []
  Time : GoStr := []
  Title : GoStr := []
deriving DecidableEq

/-- Track.Set from mpd-fzf.go: assign a metadata field selected by key;
unknown keys are ignored. -/
def Track.Set (t : Track) (key value : GoStr) : Track :=
  if key = "Album".toList then { t with Album := value }
  else if key = "Artist".toList then { t with Artist := value }
  else if key = "Date".toList then { t with Date := value }
  else if key = "Genre".toList then { t with Genre := value }
  else if key = "Time".toList then { t with Time := value }
  else if key = "Title".toList then { t with Title := value }
  else t

/-- groupByArtist from mpd-fzf.go: the tracks are bucketed in a Go map from
Artist to the tracks carrying it, in input order, and the buckets are then
concatenated following the map's iteration order.  The unspecified,
run-to-run varying iteration order is modelled by the parameter order: a
duplicate-free enumeration of the map's keys, which covers every artist
occurring in the input. -/
def groupByArtist (order : List GoStr) (tracks : List Track) : List Track :=
  order.flatMap (fun a => tracks.filter (fun t => t.Artist = a))

theorem count_groupByArtist (order : List GoStr) (l : List Track)
    (hnd : order.Nodup) (hcov : ∀ t ∈ l, t.Artist ∈ order) (x : Track) :
    (groupByArtist order l).count x = l.count x := by
  have h1 : (groupByArtist order l).count x
      = (order.map fun b => ((l.filter fun t => t.Artist = b).count x)).sum := by
    unfold groupByArtist
    rw [show (order.flatMap fun a => l.filter fun t => t.Artist = a)
        = (order.map fun a => l.filter fun t => t.Artist = a).flatten from rfl]
    rw [List.count_flatten, List.map_map]
    rfl
  have h2 : ∀ b, ((l.filter fun t => t.Artist = b).count x)
      = if x.Artist = b then l.count x else 0 := by
    intro b
    by_cases hb : x.Artist = b
    · rw [if_pos hb]
      exact List.count_filter (by simpa using hb)
    · rw [if_neg hb]
      refine List.count_eq_zero.mpr ?_
      intro hm
      have hf := List.of_mem_filter hm
      simp only [decide_eq_true_eq] at hf
      exact hb hf
  have h3 : ∀ os : List GoStr, os.Nodup →
      (os.map fun b => if x.Artist = b then l.count x else 0).sum
        = if x.Artist ∈ os then l.count x else 0 := by
    intro os
    induction os with
    | nil => simp
    | cons b bs ih =>
      intro hnd2
      rcases List.nodup_cons.mp hnd2 with ⟨hb, hbs⟩
      by_cases hxb : x.Artist = b
      · simp only [List.map_cons, List.sum_cons, if_pos hxb, ih hbs]
        rw [if_neg (by rw [hxb]; exact hb)]
        simp [List.mem_cons, hxb]
      · simp only [List.map_cons, List.sum_cons, if_neg hxb, ih hbs]
        simp [List.mem_cons, hxb]
  rw [h1]
  simp only [h2]
  rw [h3 order hnd]
  by_cases hx : x ∈ l
  · rw [if_pos (hcov x hx)]
  · have hz : l.count x = 0 := List.count_eq_zero.mpr hx
    rw [hz]
    simp

theorem groupByArtist_contiguous (order : List GoStr) (l : List Track)
    (hnd : order.Nodup) (hcov : ∀ t ∈ l, t.Artist ∈ order) (a : GoStr) :
    ∃ pre post, groupByArtist order l
        = pre ++ (l.filter fun t => t.Artist = a) ++ post ∧
      (∀ t ∈ pre, t.Artist ≠ a) ∧ (∀ t ∈ post, t.Artist ≠ a) := by
  by_cases ha : a ∈ order
  · obtain ⟨os1, os2, rfl⟩ := List.mem_iff_append.mp ha
    have hdisj := List.disjoint_of_nodup_append hnd
    have ha1 : a ∉ os1 := fun h1 => hdisj h1 (List.mem_cons_self a os2)
    have ha2 : a ∉ os2 := by
      have := (List.nodup_append.mp hnd).2.1
      exact (List.nodup_cons.mp this).1
    refine ⟨os1.flatMap fun b => l.filter fun t => t.Artist = b,
      os2.flatMap fun b => l.filter fun t => t.Artist = b, ?_, ?_, ?_⟩
    · unfold groupByArtist
      rw [List.flatMap_append, List.flatMap_cons, List.append_assoc]
    · intro t ht
      obtain ⟨b, hb, htb⟩ := List.exists_of_mem_flatMap ht
      have hf := List.of_mem_filter htb
      simp only [decide_eq_true_eq] at hf
      rw [hf]
      exact fun hba => ha1 (hba ▸ hb)
    · intro t ht
      obtain ⟨b, hb, htb⟩ := List.exists_of_mem_flatMap ht
      have hf := List.of_mem_filter htb
      simp only [decide_eq_true_eq] at hf
      rw [hf]
      exact fun hba => ha2 (hba ▸ hb)
  · have hfn : (l.filter fun t => t.Artist = a) = [] := by
      refine List.filter_eq_nil_iff.mpr ?_
      intro t ht
      simp only [decide_eq_true_eq]
      exact fun hta => ha (hta ▸ hcov t ht)
    refine ⟨groupByArtist order l, [], by rw [hfn]; simp, ?_, by simp⟩
    intro t ht
    obtain ⟨b, hb, htb⟩ := List.exists_of_mem_flatMap ht
    have hf := List.of_mem_filter htb
    simp only [decide_eq_true_eq] at hf
    rw [hf]
    exact fun hba => ha (hba ▸ hb)

theorem groupByArtist_filter_eq (order : List GoStr) (l : List Track)
    (hnd : order.Nodup) (hcov : ∀ t ∈ l, t.Artist ∈ order) (a : GoStr) :
    ((groupByArtist order l).filter fun t => t.Artist = a)
      = l.filter fun t => t.Artist = a := by
  obtain ⟨pre, post, heq, hpre, hpost⟩ := groupByArtist_contiguous order l hnd hcov a
  have hpre0 : (pre.filter fun t => t.Artist = a) = [] :=
    List.filter_eq_nil_iff.mpr (fun t ht => by
      simp only [decide_eq_true_eq]; exact hpre t ht)
  have hpost0 : (post.filter fun t => t.Artist = a) = [] :=
    List.filter_eq_nil_iff.mpr (fun t ht => by
      simp only [decide_eq_true_eq]; exact hpost t ht)
  have hmid : ((l.filter fun t => t.Artist = a).filter fun t => t.Artist = a)
      = l.filter fun t => t.Artist = a :=
    List.filter_eq_self.mpr (fun t ht => List.mem_filter.mp ht |>.2)
  rw [heq, List.filter_append, List.filter_append, hpre0, hpost0, hmid]
  simp

/-- C6: for any duplicate-free iteration order covering the artists of the
input, the grouping pass returns a permutation of the input (same length and
multiset), tracks with equal Artist values are contiguous in the output, and
the tracks of each artist keep their input relative order (the artist
subsequence of the output is exactly the artist subsequence of the input). -/
theorem c6_groupByArtist_spec (order : List GoStr) (tracks : List Track)
    (hnd : order.Nodup) (hcov : ∀ t ∈ tracks, t.Artist ∈ order) :
    (groupByArtist order tracks).Perm tracks ∧
    (groupByArtist order tracks).length = tracks.length ∧
    (∀ a, ((groupByArtist order tracks).filter fun t => t.Artist = a)
        = tracks.filter fun t => t.Artist = a) ∧
    (∀ a, ∃ pre post, groupByArtist order tracks
        = pre ++ (tracks.filter fun t => t.Artist = a) ++ post ∧
      (∀ t ∈ pre, t.Artist ≠ a) ∧ (∀ t ∈ post, t.Artist ≠ a)) := by
  have hperm : (groupByArtist order tracks).Perm tracks :=
    List.perm_iff_count.mpr (count_groupByArtist order tracks hnd hcov)
  exact ⟨hperm, hperm.length_eq,
    groupByArtist_filter_eq order tracks hnd hcov,
    groupByArtist_contiguous order tracks hnd hcov⟩

/-- Witness for C6: a concrete iteration order and track list, with one
artist split around another and the empty artist as its own group. -/
theorem c6_groupByArtist_spec_witness :
    (groupByArtist ["x".toList, []] [{ Artist := "x".toList }, { Artist := [] },
        { Artist := "x".toList, Title := "t".toList }]).Perm
      [{ Artist := "x".toList }, { Artist := [] },
        { Artist := "x".toList, Title := "t".toList }] ∧
    ((groupByArtist ["x".toList, []] [{ Artist := "x".toList }, { Artist := [] },
        { Artist := "x".toList, Title := "t".toList }]).filter
          fun t => t.Artist = "x".toList)
      = [{ Artist := "x".toList }, { Artist := "x".toList, Title := "t".toList }] := by
  have h := c6_groupByArtist_spec ["x".toList, []]
    [{ Artist := "x".toList }, { Artist := [] },
      { Artist := "x".toList, Title := "t".toList }] (by decide) (by decide)
  refine ⟨h.1, ?_⟩
  rw [h.2.2.1 "x".toList]
  decide

/-- Model of Go filepath.Join on the segment lists arising in parse: the
nonempty segments joined with the separator slash.  filepath.Join also runs
Clean on the joined result; Clean is the identity on the separator-free,
dot-free segments used in this development and is not modelled. -/
def goFilepathJoin (segs : List GoStr) : GoStr :=
  match segs.filter (fun s => decide (s ≠ [])) with
  | [] => []
  | s :: rest => s ++ rest.flatMap (fun x => '/' :: x)

/-- The mutable state of parse in mpd-fzf.go: the finalized tracks, the
in-progress track and the directory stack.  new(Track) and the empty
initial values are the record defaults. -/
structure ParseState where
  tracks : List Track := []
  track : Track := {}
  dirstack : Stack := []
deriving DecidableEq

/-- One step of the parse switch statement of mpd-fzf.go, acting on an
already split key and value: directory pushes, end pops (aborting on a
corrupt database), metadata keys set the in-progress track's field,
song_begin records the filename and snapshots the joined path, song_end
finalizes the in-progress track, anything else is ignored. -/
def parseKeyVal (st : ParseState) (key value : GoStr) : Except GoStr ParseState :=
  if key = "directory".toList then
    Except.ok { st with dirstack := st.dirstack.Push value }
  else if key = "end".toList then
    match st.dirstack.DiscardTop with
    | Except.error e => Except.error e
    | Except.ok d => Except.ok { st with dirstack := d }
  else if key = "Artist".toList ∨ key = "Album".toList ∨ key = "Date".toList ∨
      key = "Genre".toList ∨ key = "Time".toList ∨ key = "Title".toList then
    Except.ok { st with track := st.track.Set key value }
  else if key = "song_begin".toList then
    Except.ok { st with track :=
      { st.track with
        Filename := value
        Path := goFilepathJoin (st.dirstack ++ [value]) } }
  else if key = "song_end".toList then
    Except.ok { st with tracks := st.tracks ++ [st.track], track := {} }
  else
    Except.ok st

/-- One line of the parse loop: split the line with keyValue and feed the
switch. -/
def parseLine (st : ParseState) (line : GoStr) : Except GoStr ParseState :=
  parseKeyVal st (keyValue line).1 (keyValue line).2

/-- parse from mpd-fzf.go: the scan loop over the database lines. -/
def parse (lines : List GoStr) (st : ParseState) : Except GoStr ParseState :=
  match lines with
  | [] => Except.ok st
  | l :: ls =>
    match parseLine st l with
    | Except.error e => Except.error e
    | Except.ok st2 => parse ls st2

theorem parseKeyVal_tracks_mono (st : ParseState) (key value : GoStr)
    (st2 : ParseState) (h : parseKeyVal st key value = Except.ok st2) :
    st.tracks <+: st2.tracks := by
  unfold parseKeyVal at h
  split_ifs at h
  · cases h; exact List.prefix_rfl
  · cases hd : st.dirstack.DiscardTop with
    | error e => rw [hd] at h; cases h
    | ok d => rw [hd] at h; cases h; exact List.prefix_rfl
  · cases h; exact List.prefix_rfl
  · cases h; exact List.prefix_rfl
  · cases h; exact List.prefix_append st.tracks [st.track]
  · cases h; exact List.prefix_rfl

theorem parse_tracks_mono (ls : List GoStr) :
    ∀ st st2 : ParseState, parse ls st = Except.ok st2 → st.tracks <+: st2.tracks := by
  induction ls with
  | nil => intro st st2 h; cases h; exact List.prefix_rfl
  | cons l ls ih =>
    intro st st2 h
    unfold parse at h
    cases hl : parseLine st l with
    | error e => rw [hl] at h; cases h
    | ok stm =>
      rw [hl] at h
      exact (parseKeyVal_tracks_mono st (keyValue l).1 (keyValue l).2 stm hl).trans
        (ih stm st2 h)

theorem parseKeyVal_song_begin (st : ParseState) (value : GoStr) :
    parseKeyVal st "song_begin".toList value = Except.ok { st with track :=
      { st.track with
        Filename := value
        Path := goFilepathJoin (st.dirstack ++ [value]) } } := by
  unfold parseKeyVal
  rw [if_neg (by decide), if_neg (by decide), if_neg (by decide), if_pos rfl]

/-- C1: the in-progress track's Path is written only by the song_begin step,
as the join of the directory stack at that instant extended with the new
filename (an immutable snapshot: the state records a fresh list); parsing
further lines never rewrites the tracks already accumulated (they stay a
prefix, element for element).  On the stream directory a, directory b,
song_begin c.mp3, end, end followed by a sibling directory z / end pair, the
recorded Path is still the join a/b/c.mp3; with a song_end before the pops,
the finalized track list is exactly [a/b/c.mp3]. -/
theorem c1_parse_path_snapshot :
    (∀ (st : ParseState) (value : GoStr),
      parseKeyVal st "song_begin".toList value = Except.ok { st with track :=
        { st.track with
          Filename := value
          Path := goFilepathJoin (st.dirstack ++ [value]) } }) ∧
    (∀ (ls : List GoStr) (st st2 : ParseState),
      parse ls st = Except.ok st2 → st.tracks <+: st2.tracks) ∧
    ((parse ["directory: a".toList, "directory: b".toList, "song_begin: c.mp3".toList,
        "end".toList, "end".toList, "directory: z".toList, "end".toList] {}).toOption.map
      (fun st => st.track.Path) = some "a/b/c.mp3".toList) ∧
    ((parse ["directory: a".toList, "directory: b".toList, "song_begin: c.mp3".toList,
        "song_end".toList, "end".toList, "end".toList, "directory: z".toList,
        "end".toList] {}).toOption.map
      (fun st => st.tracks.map (fun t => t.Path)) = some ["a/b/c.mp3".toList]) := by
  refine ⟨parseKeyVal_song_begin, fun ls => parse_tracks_mono ls, ?_, ?_⟩ <;> rfl

/-- Witness for C1: the prefix-stability conjunct applied to the concrete
stream, and the song_begin step applied to the empty state. -/
theorem c1_parse_path_snapshot_witness :
    (({} : ParseState)).tracks <+:
      ({ track :=
          { Filename := "c.mp3".toList
            Path := "a/b/c.mp3".toList } } : ParseState).tracks ∧
    parseKeyVal {} "song_begin".toList "c.mp3".toList = Except.ok
      { track :=
          { Filename := "c.mp3".toList
            Path := goFilepathJoin ([] ++ ["c.mp3".toList]) } } := by
  refine ⟨c1_parse_path_snapshot.2.1
    ["directory: a".toList, "directory: b".toList, "song_begin: c.mp3".toList,
      "end".toList, "end".toList, "directory: z".toList, "end".toList] {}
    { track :=
        { Filename := "c.mp3".toList
          Path := "a/b/c.mp3".toList } }
    (by rfl), ?_⟩
  exact c1_parse_path_snapshot.1 {} "c.mp3".toList

/-- Model of go-runewidth RuneWidth: zero for control runes, two for the
main wide East-Asian blocks (Hangul Jamo and syllables, CJK, compatibility
ideographs, fullwidth forms, supplementary ideographs), one otherwise.
Combining marks and the rarer wide ranges of the full library tables are not
hit by any input considered in this development. -/
def goRuneWidth (c : Char) : Nat :=
  if c.toNat < 0x20 ∨ (0x7F ≤ c.toNat ∧ c.toNat < 0xA0) then 0
  else if (0x1100 ≤ c.toNat ∧ c.toNat ≤ 0x115F) ∨ (0x2E80 ≤ c.toNat ∧ c.toNat ≤ 0xA4CF) ∨
      (0xAC00 ≤ c.toNat ∧ c.toNat ≤ 0xD7A3) ∨ (0xF900 ≤ c.toNat ∧ c.toNat ≤ 0xFAFF) ∨
      (0xFF00 ≤ c.toNat ∧ c.toNat ≤ 0xFF60) ∨ (0x20000 ≤ c.toNat ∧ c.toNat ≤ 0x2FFFD)
    then 2
  else 1

/-- runewidth.StringWidth: the sum of the rune widths. -/
def goStringWidth (s : GoStr) : Nat := (s.map goRuneWidth).sum

/-- The rune-taking loop of runewidth.Truncate: keep runes while the
accumulated width stays within the budget, stop at the first overflow. -/
def truncTake (s : GoStr) (budget : Int) : GoStr :=
  match s with
  | [] => []
  | c :: cs =>
    if (goRuneWidth c : Int) ≤ budget then c :: truncTake cs (budget - goRuneWidth c)
    else []

/-- runewidth.Truncate(s, w, tail): s unchanged when its width is within w,
otherwise the widest prefix fitting w minus the tail's width, with the tail
appended. -/
def goTruncate (s : GoStr) (w : Int) (tail : GoStr) : GoStr :=
  if (goStringWidth s : Int) ≤ w then s
  else truncTake s (w - goStringWidth tail) ++ tail

/-- runewidth.FillRight(s, w): pad with spaces on the right up to width w;
no padding when the width already reaches w, in particular for a
nonpositive count (the count > 0 guard of the library). -/
def goFillRight (s : GoStr) (w : Int) : GoStr :=
  s ++ List.replicate (w - goStringWidth s).toNat ' '

/-- The ellipsis tail "... " passed by mpd-fzf.go to runewidth.Truncate. -/
def ellipsisTail : GoStr := "... ".toList

/-- alignLeftRight from mpd-fzf.go: truncate left to maxlen appending the
ellipsis tail on truncation, pad with spaces to maxlen, then append right. -/
def alignLeftRight (maxlen : Int) (left right : GoStr) : GoStr :=
  goFillRight (goTruncate left maxlen ellipsisTail) maxlen ++ right

/-- filepath.Base: empty path gives a dot, an all-separator path gives a
single separator, otherwise the element after the last separator with
trailing separators stripped. -/
def goBase (s : GoStr) : GoStr :=
  if s = [] then ['.']
  else if s.reverse.dropWhile (fun c => decide (c = '/')) = [] then ['/']
  else ((s.reverse.dropWhile (fun c => decide (c = '/'))).takeWhile
    (fun c => decide (c ≠ '/'))).reverse

/-- filepath.Ext: the suffix starting at the final dot in the final
slash-separated element, empty when there is no dot. -/
def goExt (s : GoStr) : GoStr :=
  let r := s.reverse.takeWhile (fun c => decide (c ≠ '/'))
  if '.' ∈ r then (r.takeWhile (fun c => decide (c ≠ '.')) ++ ['.']).reverse else []

/-- strings.TrimSuffix: remove the suffix when present. -/
def goTrimSuffix (s suffix : GoStr) : GoStr :=
  if suffix <:+ s then s.take (s.length - suffix.length) else s

/-- withoutExt from mpd-fzf.go: the base name without its extension. -/
def withoutExt (path : GoStr) : GoStr :=
  goTrimSuffix (goBase path) (goExt (goBase path))

/-- strings.Replace(s, string(c), string(r), -1) for single-rune pattern and
replacement: replace every occurrence. -/
def replaceChar (s : GoStr) (c r : Char) : GoStr :=
  s.map (fun x => if x = c then r else x)

/-- Step one of the display text in trackFormatter: the title, or the
filename without its extension when the title is empty. -/
def trackInfoBase (t : Track) : GoStr :=
  if t.Title = [] then withoutExt t.Filename else t.Title

/-- Step two: prefix the artist and a dash when the artist is nonempty. -/
def trackInfoArtist (t : Track) : GoStr :=
  if t.Artist ≠ [] then t.Artist ++ " - ".toList ++ trackInfoBase t else trackInfoBase t

/-- Step three: append the album in braces when the album is nonempty. -/
def trackInfoAlbum (t : Track) : GoStr :=
  if t.Album ≠ [] then trackInfoArtist t ++ " \x7b".toList ++ t.Album ++ ['\x7d']
  else trackInfoArtist t

/-- The display text of the trackFormatter closure in mpd-fzf.go: the steps
above, with every embedded delimiter rune replaced by a plain space
(strings.Replace(info, delimiter, " ", -1)). -/
def trackInfo (t : Track) : GoStr :=
  replaceChar (trackInfoAlbum t) delimChar ' '

/-- The trackFormatter closure of mpd-fzf.go, with the terminal width as a
parameter (termWidth() queries an external process): width is the terminal
width minus 5 for the fzf right edge minus 1 for the delimiter; the visible
text is the display text aligned left with the delimiter and duration
right-aligned, and the full path follows after one more delimiter. -/
def trackFormatter (termW : Int) (t : Track) : GoStr :=
  let width := termW - 5 - 1
  let duration := formatDurationString t.Time
  alignLeftRight (width - duration.length) (trackInfo t) (delimChar :: duration)
    ++ delimChar :: t.Path

/-- Split at the first occurrence of a rune: none when absent, otherwise
the parts before and after it. -/
def splitAtFirst (s : GoStr) (sep : Char) : Option (GoStr × GoStr) :=
  match s with
  | [] => none
  | c :: cs =>
    if c = sep then some ([], cs)
    else
      match splitAtFirst cs sep with
      | none => none
      | some (a, b) => some (c :: a, b)

/-- strings.SplitN for a single-rune separator and n > 0: at most n fields,
the last field keeping any further separators verbatim. -/
def goSplitN (s : GoStr) (sep : Char) (n : Nat) : List GoStr :=
  match n with
  | 0 => []
  | 1 => [s]
  | m + 2 =>
    match splitAtFirst s sep with
    | none => [s]
    | some (a, b) => a :: goSplitN b sep (m + 1)

/-- The path-recovery step of cmdSelect in mpd-fzf.go: split the selected
line at the delimiter into at most 3 fields; a field count other than 3 is
the split assertion failure (failNotify aborts, modelled as none); the
final field is the track path handed to mpc. -/
def cmdSelectPath (fzfline : GoStr) : Option GoStr :=
  match goSplitN fzfline delimChar 3 with
  | [_, _, p] => some p
  | _ => none

theorem truncTake_front (s : GoStr) (b : Int) : truncTake s b <+: s := by
  induction s generalizing b with
  | nil => exact List.prefix_rfl
  | cons c cs ih =>
    unfold truncTake
    split
    · exact List.cons_prefix_cons.mpr ⟨rfl, ih (b - goRuneWidth c)⟩
    · exact List.nil_prefix

theorem truncTake_neg {s : GoStr} {b : Int} (h : b < 0) : truncTake s b = [] := by
  cases s with
  | nil => rfl
  | cons c cs =>
    unfold truncTake
    rw [if_neg (by
      have : (0 : Int) ≤ (goRuneWidth c : Int) := Int.ofNat_nonneg _
      omega)]

theorem goStringWidth_ellipsis : goStringWidth ellipsisTail = 4 := by decide

theorem goTruncate_shape (s : GoStr) (w : Int) :
    goTruncate s w ellipsisTail = s ∨
      ∃ p, p <+: s ∧ goTruncate s w ellipsisTail = p ++ ellipsisTail := by
  unfold goTruncate
  split
  · exact Or.inl rfl
  · exact Or.inr ⟨truncTake s (w - goStringWidth ellipsisTail),
      truncTake_front s _, rfl⟩

theorem mem_goTruncate {c : Char} {s : GoStr} {w : Int} {tail : GoStr}
    (h : c ∈ goTruncate s w tail) : c ∈ s ∨ c ∈ tail := by
  unfold goTruncate at h
  split at h
  · exact Or.inl h
  · rcases List.mem_append.mp h with h | h
    · exact Or.inl ((truncTake_front s _).subset h)
    · exact Or.inr h

theorem mem_goFillRight {c : Char} {s : GoStr} {w : Int}
    (h : c ∈ goFillRight s w) : c ∈ s ∨ c = ' ' := by
  unfold goFillRight at h
  rcases List.mem_append.mp h with h | h
  · exact Or.inl h
  · exact Or.inr (List.eq_of_mem_replicate h)

theorem delim_not_mem_replaceChar (s : GoStr) : delimChar ∉ replaceChar s delimChar ' ' := by
  intro h
  obtain ⟨x, _, hfx⟩ := List.mem_map.mp h
  by_cases hx : x = delimChar
  · rw [if_pos hx] at hfx
    exact absurd hfx (by decide)
  · rw [if_neg hx] at hfx
    exact hx hfx

theorem delim_not_mem_trackInfo (t : Track) : delimChar ∉ trackInfo t :=
  delim_not_mem_replaceChar (trackInfoAlbum t)

theorem delim_not_mem_duration (s : GoStr) : delimChar ∉ formatDurationString s := by
  intro h
  have hb := formatDuration_ascii s delimChar h
  have hd : delimChar.toNat = 8194 := by decide
  omega

theorem delim_not_mem_visible (t : Track) (m : Int) :
    delimChar ∉ goFillRight (goTruncate (trackInfo t) m ellipsisTail) m := by
  intro h
  rcases mem_goFillRight h with h | h
  · rcases mem_goTruncate h with h | h
    · exact delim_not_mem_trackInfo t h
    · exact absurd h (by decide)
  · exact absurd h (by decide)

theorem splitAtFirst_append {A : GoStr} (sep : Char) (B : GoStr) (h : sep ∉ A) :
    splitAtFirst (A ++ sep :: B) sep = some (A, B) := by
  induction A with
  | nil => simp [splitAtFirst]
  | cons c cs ih =>
    simp only [List.mem_cons, not_or] at h
    have hc : c ≠ sep := fun hce => h.1 hce.symm
    show splitAtFirst (c :: (cs ++ sep :: B)) sep = some (c :: cs, B)
    unfold splitAtFirst
    rw [if_neg hc, ih h.2]

theorem goSplitN_three {A B C : GoStr} {sep : Char} (hA : sep ∉ A) (hB : sep ∉ B) :
    goSplitN (A ++ sep :: (B ++ sep :: C)) sep 3 = [A, B, C] := by
  unfold goSplitN
  rw [splitAtFirst_append sep (B ++ sep :: C) hA]
  show A :: goSplitN (B ++ sep :: C) sep 2 = [A, B, C]
  unfold goSplitN
  rw [splitAtFirst_append sep C hB]
  show A :: B :: goSplitN C sep 1 = [A, B, C]
  rfl

theorem trackFormatter_decompose (termW : Int) (t : Track) :
    trackFormatter termW t
      = goFillRight (goTruncate (trackInfo t)
            (termW - 5 - 1 - (formatDurationString t.Time).length) ellipsisTail)
          (termW - 5 - 1 - (formatDurationString t.Time).length)
        ++ delimChar :: (formatDurationString t.Time ++ delimChar :: t.Path) := by
  unfold trackFormatter alignLeftRight
  rw [List.append_assoc, List.cons_append]

/-- C2: splitting a formatter-produced line at the delimiter with SplitN
into 3 fields, as cmdSelect does, always yields exactly 3 fields — the
assertion-failure branch is unreachable on such lines — and the final field
is the track's original Path, unchanged, even when the Path itself contains
the delimiter. -/
theorem c2_roundtrip_spec (termW : Int) (t : Track) :
    cmdSelectPath (trackFormatter termW t) = some t.Path ∧
    (goSplitN (trackFormatter termW t) delimChar 3).length = 3 := by
  have hsplit : goSplitN (trackFormatter termW t) delimChar 3
      = [goFillRight (goTruncate (trackInfo t)
            (termW - 5 - 1 - (formatDurationString t.Time).length) ellipsisTail)
          (termW - 5 - 1 - (formatDurationString t.Time).length),
        formatDurationString t.Time, t.Path] := by
    rw [trackFormatter_decompose]
    exact goSplitN_three (delim_not_mem_visible t _) (delim_not_mem_duration t.Time)
  constructor
  · unfold cmdSelectPath
    rw [hsplit]
  · rw [hsplit]
    rfl

/-- C9: the truncate-and-pad step of the formatter is a total function; in
particular when the duration alone exceeds the width budget and the
truncation budget goes negative, alignLeftRight faults nowhere and returns
the bare ellipsis tail followed by the right-hand text: the library guards
of runewidth.Truncate (loop comparison) and runewidth.FillRight (count > 0)
take the place of an explicit clamp. -/
theorem c9_alignLeftRight_negative_budget (maxlen : Int) (left right : GoStr)
    (h : maxlen < 0) :
    alignLeftRight maxlen left right = ellipsisTail ++ right := by
  have hw : ¬ ((goStringWidth left : Int) ≤ maxlen) := by
    have : (0 : Int) ≤ (goStringWidth left : Int) := Int.ofNat_nonneg _
    omega
  have he : ((goStringWidth ellipsisTail : Nat) : Int) = 4 := by
    simp [goStringWidth_ellipsis]
  unfold alignLeftRight goTruncate
  rw [if_neg hw, truncTake_neg (by omega)]
  unfold goFillRight
  rw [List.nil_append]
  have hcount : (maxlen - (goStringWidth ellipsisTail : Int)).toNat = 0 :=
    Int.toNat_eq_zero.mpr (by omega)
  rw [hcount]
  simp

/-- Witness for C9: a negative truncation budget on a concrete description
and duration. -/
theorem c9_alignLeftRight_negative_budget_witness :
    alignLeftRight (-2) "a description".toList "(0:45)".toList
      = ellipsisTail ++ "(0:45)".toList :=
  c9_alignLeftRight_negative_budget (-2) "a description".toList "(0:45)".toList
    (by decide)

/-- Every rune of the string has display width one: the hypothesis under
which codepoint counts and display cells coincide. -/
abbrev allSingleWidth (s : GoStr) : Prop := ∀ c ∈ s, goRuneWidth c = 1

theorem goStringWidth_cons (c : Char) (cs : GoStr) :
    goStringWidth (c :: cs) = goRuneWidth c + goStringWidth cs := by
  simp [goStringWidth]

theorem goStringWidth_eq_length {s : GoStr} (h : allSingleWidth s) :
    goStringWidth s = s.length := by
  induction s with
  | nil => rfl
  | cons c cs ih =>
    have hc : goRuneWidth c = 1 := h c (List.mem_cons_self c cs)
    have hcs : allSingleWidth cs := fun d hd => h d (List.mem_cons_of_mem c hd)
    rw [goStringWidth_cons, hc, ih hcs, List.length_cons]
    omega

theorem allSingleWidth_append {a b : GoStr} (ha : allSingleWidth a)
    (hb : allSingleWidth b) : allSingleWidth (a ++ b) :=
  fun c hc => (List.mem_append.mp hc).elim (ha c) (hb c)

theorem truncTake_singleWidth {s : GoStr} (h : allSingleWidth s) :
    ∀ b : Int, 0 ≤ b → truncTake s b = s.take b.toNat := by
  induction s with
  | nil => intro b _; simp [truncTake]
  | cons c cs ih =>
    intro b hb
    have hc : goRuneWidth c = 1 := h c (List.mem_cons_self c cs)
    have hcs : allSingleWidth cs := fun d hd => h d (List.mem_cons_of_mem c hd)
    unfold truncTake
    rw [hc]
    simp only [Nat.cast_one]
    by_cases h1 : (1 : Int) ≤ b
    · rw [if_pos h1, ih hcs (b - 1) (by omega)]
      have hbn : b.toNat = (b - 1).toNat + 1 := by omega
      rw [hbn, List.take_succ_cons]
    · rw [if_neg h1]
      have hbz : b.toNat = 0 := by omega
      rw [hbz, List.take_zero]

theorem mem_goBase {c : Char} {s : GoStr} (h : c ∈ goBase s) :
    c ∈ s ∨ c = '.' ∨ c = '/' := by
  unfold goBase at h
  split at h
  · exact Or.inr (Or.inl (by simpa using h))
  · split at h
    · exact Or.inr (Or.inr (by simpa using h))
    · have h1 := List.mem_reverse.mp h
      have h2 := List.takeWhile_subset _ h1
      have h3 := List.dropWhile_subset _ h2
      exact Or.inl (List.mem_reverse.mp h3)

theorem mem_withoutExt {c : Char} {p : GoStr} (h : c ∈ withoutExt p) :
    c ∈ p ∨ c = '.' ∨ c = '/' := by
  unfold withoutExt goTrimSuffix at h
  split at h
  · exact mem_goBase ((List.take_prefix _ _).subset h)
  · exact mem_goBase h

theorem trackInfo_singleWidth {t : Track} (h1 : allSingleWidth t.Title)
    (h2 : allSingleWidth t.Artist) (h3 : allSingleWidth t.Album)
    (h4 : allSingleWidth t.Filename) : allSingleWidth (trackInfo t) := by
  have hb : allSingleWidth (trackInfoBase t) := by
    unfold trackInfoBase
    split
    · intro c hc
      rcases mem_withoutExt hc with h | h | h
      · exact h4 c h
      · subst h; decide
      · subst h; decide
    · exact h1
  have ha : allSingleWidth (trackInfoArtist t) := by
    unfold trackInfoArtist
    split
    · exact allSingleWidth_append (allSingleWidth_append h2 (by decide)) hb
    · exact hb
  have halb : allSingleWidth (trackInfoAlbum t) := by
    unfold trackInfoAlbum
    split
    · exact allSingleWidth_append
        (allSingleWidth_append (allSingleWidth_append ha (by decide)) h3) (by decide)
    · exact ha
  intro c hc
  unfold trackInfo replaceChar at hc
  obtain ⟨x, hx, hfx⟩ := List.mem_map.mp hc
  by_cases hxd : x = delimChar
  · rw [if_pos hxd] at hfx
    rw [← hfx]
    decide
  · rw [if_neg hxd] at hfx
    rw [← hfx]
    exact halb x hx

theorem goFillRight_length (s : GoStr) (w : Int) :
    (goFillRight s w).length = s.length + (w - goStringWidth s).toNat := by
  simp [goFillRight]

theorem alignLeftRight_singleWidth (w : Int) (left right : GoStr)
    (h1 : allSingleWidth left) (h4 : 4 ≤ w) :
    ((alignLeftRight w left right).length : Int) = w + right.length ∧
    right <:+ alignLeftRight w left right := by
  have hbe : ((goStringWidth ellipsisTail : Nat) : Int) = 4 := by
    simp [goStringWidth_ellipsis]
  have key : allSingleWidth (goTruncate left w ellipsisTail) ∧
      ((goTruncate left w ellipsisTail).length : Int) ≤ w := by
    unfold goTruncate
    split
    · next hle =>
      refine ⟨h1, ?_⟩
      rwa [goStringWidth_eq_length h1] at hle
    · next hgt =>
      rw [hbe]
      constructor
      · exact allSingleWidth_append
          (fun c hc => h1 c ((truncTake_front left _).subset hc)) (by decide)
      · rw [truncTake_singleWidth h1 (w - 4) (by omega)]
        rw [List.length_append, List.length_take]
        have hel : ellipsisTail.length = 4 := by decide
        rw [hel]
        push_cast
        omega
  obtain ⟨hsw, hlen⟩ := key
  constructor
  · unfold alignLeftRight
    rw [List.length_append, goFillRight_length, goStringWidth_eq_length hsw]
    push_cast
    omega
  · exact ⟨goFillRight (goTruncate left w ellipsisTail) w, rfl⟩

/-- C3 (amended): for a track whose metadata runes are all single-width and
a terminal width granting the display text at least the four runes of the
ellipsis tail beyond the duration (terminal width at least duration length
plus ten, i.e. visible budget terminal-width minus five at least duration
length plus five — not plus one as the claim states), the visible portion
of the formatted line before the delimiter that precedes the hidden Path
field consists of exactly terminal-width minus five runes, the duration is
its suffix (right-aligned, ending at the final position), and truncation
acts on whole runes: it returns the display text itself or a rune prefix of
it followed by the ellipsis tail, never a split rune. -/
theorem c3_formatter_layout (termW : Int) (t : Track)
    (ht : allSingleWidth t.Title) (har : allSingleWidth t.Artist)
    (hal : allSingleWidth t.Album) (hf : allSingleWidth t.Filename)
    (hw : ((formatDurationString t.Time).length : Int) + 10 ≤ termW) :
    trackFormatter termW t
      = alignLeftRight (termW - 5 - 1 - (formatDurationString t.Time).length)
          (trackInfo t) (delimChar :: formatDurationString t.Time)
        ++ delimChar :: t.Path ∧
    ((alignLeftRight (termW - 5 - 1 - (formatDurationString t.Time).length)
        (trackInfo t) (delimChar :: formatDurationString t.Time)).length : Int)
      = termW - 5 ∧
    formatDurationString t.Time <:+
      alignLeftRight (termW - 5 - 1 - (formatDurationString t.Time).length)
        (trackInfo t) (delimChar :: formatDurationString t.Time) ∧
    (goTruncate (trackInfo t)
        (termW - 5 - 1 - (formatDurationString t.Time).length) ellipsisTail
      = trackInfo t ∨
      ∃ p, p <+: trackInfo t ∧
        goTruncate (trackInfo t)
          (termW - 5 - 1 - (formatDurationString t.Time).length) ellipsisTail
        = p ++ ellipsisTail) := by
  have hsw := trackInfo_singleWidth ht har hal hf
  have hkey := alignLeftRight_singleWidth
    (termW - 5 - 1 - (formatDurationString t.Time).length) (trackInfo t)
    (delimChar :: formatDurationString t.Time) hsw (by omega)
  refine ⟨rfl, ?_, ?_, goTruncate_shape _ _⟩
  · rw [hkey.1, List.length_cons]
    push_cast
    omega
  · exact List.IsSuffix.trans ⟨[delimChar], rfl⟩ hkey.2

/-- Witness for C3: the layout at terminal width 40 on a concrete all-ASCII
track with duration "(0:45)". -/
theorem c3_formatter_layout_witness :
    ((alignLeftRight (40 - 5 - 1 - (formatDurationString "45".toList).length)
        (trackInfo { Title := "hello".toList, Time := "45".toList })
        (delimChar :: formatDurationString "45".toList)).length : Int)
      = 40 - 5 :=
  (c3_formatter_layout 40 { Title := "hello".toList, Time := "45".toList }
    (by decide) (by decide) (by decide) (by decide) (by decide)).2.1

/-- Counterexample to C3 as stated: at terminal width 12 the visible budget
(terminal width minus five) is 7, one more than the longest duration string
"(-:--)" of 6 runes, exactly as the claim's precondition allows; yet on a
track with a ten-rune title and empty Path the visible portion before the
delimiter preceding the Path field has 11 runes, not 7: the ellipsis tail
"... " itself overflows the truncation budget. -/
theorem c3_formatter_counterexample :
    trackFormatter 12 { Title := "aaaaaaaaaa".toList, Time := [] }
      = ("... ".toList ++ delimChar :: "(-:--)".toList) ++ [delimChar] ∧
    ("... ".toList ++ delimChar :: "(-:--)".toList).length = 11 ∧
    (("(-:--)".toList : GoStr).length + 1 : Int) ≤ 12 - 5 ∧
    (11 : Nat) ≠ 12 - 5 :=
  ⟨by decide, by decide, by decide, by decide⟩
